import Mathlib

/-!
Verification development for Packaide (src/python/packaide/packaide.py).

Packaide packs closed SVG shapes onto sheets.  The Python layer parses the
SVG documents, turns each path into a conservative polygonal
over-approximation (dilating boundaries and eroding holes), and hands the
polygons to a first-fit-decreasing placement driver backed by a cache of
no-fit polygons (NFPs).

The development has three models:

* an ingest model over exact rational coordinates, in which the geometric
  operations of the external `shapely` library are kept symbolic (`GExpr`),
  so that the preprocessing pipeline of `extract_shapely_polygons` and
  `extract_polygons` is embedded operation for operation;

* a metric model of dilation/erosion (Minkowski offset by a disk, modelled
  from the documented contract of the offset operations), in which the
  conservative-approximation bounds are proved;

* a raster model of the placement driver `pack_decreasing` and its
  persistent NFP cache (the native kernel is not part of the Python
  sources; the driver is modelled from the specification: feasible
  positions are those where the part lies inside the sheet rectangle and
  overlaps no obstacle, candidate positions are scanned in bottom-left
  order, placed parts are appended to the sheet's obstacle set, and all
  NFP queries go through a memo table keyed by the canonical shapes).
-/

namespace Packaide

/-! ## Ingest model: SVG documents and elements

`svgelements` hands `pack` a stream of elements, each carrying an
attribute dictionary (`element.values`).  A path is a list of subpaths;
each subpath has a start point (`path.point(0)`) and an end point
(`path.point(1)`).  The actual curve geometry is irrelevant to the
retention logic, so a subpath keeps only those two points plus an
identifier naming it in the symbolic geometry expressions. -/

/-- A subpath: `pid` names it (for the symbolic geometry expressions) and
`gap` is the distance between its start point (`path.point(0)`) and its
end point (`path.point(1)`) — the only geometric quantity the retention
logic reads. -/
structure SubPath where
  pid : ℕ
  gap : ℚ
deriving DecidableEq

/-- A path element: `segCount` is `len(element)` (the number of segments);
`subpaths` is `path.as_subpaths()`, the first subpath being the outer
boundary. -/
structure PathElem where
  segCount : ℕ
  subpaths : List SubPath
deriving DecidableEq

abbrev Attrs := List (String × String)

/-- An SVG element as seen by the loop in `extract_shapely_polygons`:
a `Path`, some other `Shape` (stored with the path it converts to via
`svgelements.Path(element); e.reify()`), or a non-shape element. -/
inductive Element
  | path (values : Attrs) (p : PathElem)
  | shape (values : Attrs) (p : PathElem)
  | other (values : Attrs)
deriving DecidableEq

/-- An SVG document string: its viewBox width/height (integral in the
raster model) and its elements. -/
structure SvgDoc where
  width : ℤ
  height : ℤ
  elements : List Element

def lookupAttr (vs : Attrs) (k : String) : Option String :=
  match vs with
  | [] => none
  | kv :: rest => if kv.1 = k then some kv.2 else lookupAttr rest k

def elemValues : Element → Attrs
  | .path vs _ => vs
  | .shape vs _ => vs
  | .other vs => vs

/-- Line 99: `'hidden' in element.values and element.values['visibility'] == 'hidden'`.
The model assumes the (inherited) `visibility` entry is present whenever it
is read, so a missing entry compares unequal rather than raising. -/
def hiddenSkip (e : Element) : Bool :=
  (lookupAttr (elemValues e) "hidden").isSome &&
    (lookupAttr (elemValues e) "visibility" == some "hidden")

/-- `is_closed` on a single subpath: the distance between its start and
end points is strictly below the tolerance
(`path.point(0).distance_to(path.point(1)) < tolerance`). -/
def isClosedSub (sp : SubPath) (tolerance : ℚ) : Bool :=
  decide (sp.gap < tolerance)

/-- Lines 56-64: `is_closed(path, tolerance)` takes the boundary
(`subpath(0)`) and compares that subpath's start and end points. -/
def is_closed (p : PathElem) (tolerance : ℚ) : Bool :=
  match p.subpaths with
  | [] => false
  | sp :: _ => isClosedSub sp tolerance

/-! ## Symbolic geometry expressions

The geometry produced by ingest is built from four operations of the
external `shapely` library.  They are kept symbolic: `disc pid s` is
`discretize_path` applied to the subpath named `pid` at spacing `s`,
and the three others are `dilate`, `erode` and `.simplify`. -/

inductive GExpr
  | disc (pid : ℕ) (spacing : ℚ)
  | dilate (e : GExpr) (r : ℚ)
  | erode (e : GExpr) (r : ℚ)
  | simplify (e : GExpr) (tol : ℚ)
deriving DecidableEq

/-- Line 47-52: discretize a subpath at the given spacing. -/
def discretize_path (sp : SubPath) (spacing : ℚ) : GExpr :=
  .disc sp.pid spacing

/-- The default subpath used only to state head access totally. -/
def dsub : SubPath := ⟨0, 0⟩

/-- Line 129: the conservative boundary of a path:
`dilate(discretize_path(path.subpath(0), tolerance), 1.5*tolerance).simplify(tolerance)`. -/
def boundaryOf (p : PathElem) (tolerance : ℚ) : GExpr :=
  .simplify (.dilate (discretize_path (p.subpaths.headD dsub) tolerance)
    (3 / 2 * tolerance)) tolerance

/-- Lines 134-135: the conservative holes of a path: every closed subpath
after the first is eroded by `1.5*tolerance` and simplified. -/
def holesOf (p : PathElem) (tolerance : ℚ) : List GExpr :=
  (p.subpaths.drop 1).filterMap (fun sp =>
    if isClosedSub sp tolerance then
      some (.simplify (.erode (discretize_path sp tolerance) (3 / 2 * tolerance))
        tolerance)
    else none)

/-- Lines 97-111: the retention decision for one element.  Hidden elements
are skipped; a `Path` or other `Shape` is kept when it has segments and its
first subpath is closed within the tolerance; non-shape elements are never
kept.  Returns the flattened element together with the path used for its
geometry (for a non-path `Shape`, the converted path). -/
def keepElement (e : Element) (tolerance : ℚ) : Option (Element × PathElem) :=
  if hiddenSkip e then none
  else
    match e with
    | .path _ p =>
      if decide (p.segCount ≠ 0) && is_closed p tolerance then some (e, p) else none
    | .shape _ p =>
      if decide (p.segCount ≠ 0) && is_closed p tolerance then some (e, p) else none
    | .other _ => none

/-- Lines 89-140, `extract_shapely_polygons`: the retained elements and, in
parallel, each one's conservative boundary and holes. -/
def extract_shapely_polygons (doc : SvgDoc) (tolerance : ℚ) :
    List Element × List (GExpr × List GExpr) :=
  let kept := doc.elements.filterMap (fun e => keepElement e tolerance)
  (kept.map (fun ep => ep.1),
   kept.map (fun ep => (boundaryOf ep.2 tolerance, holesOf ep.2 tolerance)))

/-- The C++ binding's polygon-with-holes, at the symbolic level.  Dropping
holes that erosion made empty and splitting multi-component holes
(lines 161-178) reshape the hole list representation without changing the
geometry it denotes, so the symbolic model keeps the hole list as is. -/
structure PolyWH where
  boundary : GExpr
  holes : List GExpr
deriving DecidableEq

/-- Lines 146-182, `extract_polygons`: each conservative polygon's boundary
is further dilated by `offset` (line 152); its holes are converted
unchanged. -/
def extract_polygons (doc : SvgDoc) (tolerance offset : ℚ) :
    List Element × List PolyWH :=
  let es := extract_shapely_polygons doc tolerance
  (es.1, es.2.map (fun bh => { boundary := .dilate bh.1 offset, holes := bh.2 }))

/-! ## Raster model of the placement driver

Modelled from the spec: the native `_packaide` kernel (`State`, `Sheet`,
`PolygonWithHoles`, `sheet_add_holes`, `pack_decreasing`) is not among the
Python sources, so the driver is modelled from the specification's
placement-driver and NFP-engine contracts.  A region is a finite set of
unit cells of the integer grid; a part placed at translation `v` occupies
`rtrans v` of its canonical region.  The NFP of a stationary region `A`
and an orbiting region `B` is the set of translations of `B` that make it
overlap `A`, which is the Minkowski difference `A - B`; the feasible
positions on a sheet are those inside the sheet rectangle avoiding every
obstacle's NFP.  NFP queries are memoized in a `State` keyed by the
canonical shape pair. -/

abbrev Pt2 := ℤ × ℤ

abbrev Region := Finset Pt2

def rtrans (v : Pt2) (P : Region) : Region :=
  P.image (fun c => (c.1 + v.1, c.2 + v.2))

/-- The no-fit polygon of stationary `A` and orbiter `B`: all translations
`d` with `rtrans d B` overlapping `A`; computed as the Minkowski difference
of `A` and `B`. -/
def nfpSet (A B : Region) : Region :=
  (A ×ˢ B).image (fun ab => (ab.1.1 - ab.2.1, ab.1.2 - ab.2.2))

/-- The persistent NFP cache: an association list from canonical shape
pairs to the cached NFP.  `State()` is the empty list. -/
abbrev NState := List ((Region × Region) × Region)

def lookupNfp (st : NState) (k : Region × Region) : Option Region :=
  match st with
  | [] => none
  | kv :: rest => if kv.1 = k then some kv.2 else lookupNfp rest k

/-- Memoized NFP: return the cached value on a hit, otherwise compute the
NFP and insert it. -/
def getNfp (st : NState) (A B : Region) : Region × NState :=
  match lookupNfp st (A, B) with
  | some r => (r, st)
  | none => (nfpSet A B, ((A, B), nfpSet A B) :: st)

/-- Every entry of the cache is the NFP of its key. -/
def Consistent (st : NState) : Prop :=
  ∀ k v, lookupNfp st k = some v → v = nfpSet k.1 k.2

/-- A sheet: its rectangle and its forbidden regions, each a canonical
shape at a position.  Placed parts are appended here as the driver runs. -/
structure MSheet where
  w : ℤ
  h : ℤ
  obstacles : List (Region × Pt2)

/-- A part lies in the `w × h` sheet rectangle. -/
def InRect (w h : ℤ) (P : Region) : Prop :=
  ∀ c ∈ P, 0 ≤ c.1 ∧ c.1 < w ∧ 0 ≤ c.2 ∧ c.2 < h

instance instInRectDecidable (w h : ℤ) (P : Region) : Decidable (InRect w h P) :=
  Finset.decidableDforallFinset

/-- The candidate positions scanned on a sheet: every cell of the
rectangle (the part's reference vertex is normalized to the origin of its
canonical pose). -/
def rectCells (w h : ℤ) : List Pt2 :=
  (List.range w.toNat).flatMap (fun i =>
    (List.range h.toNat).map (fun j => ((i : ℤ), (j : ℤ))))

/-- The bottom-left-fill cost order: lexicographic on `(y, x)`. -/
def costLt (a b : Pt2) : Bool :=
  decide (a.2 < b.2) || (decide (a.2 = b.2) && decide (a.1 < b.1))

/-- The bottom-left-most position of a list (the earliest of several
minima). -/
def pickMin : List Pt2 → Option Pt2
  | [] => none
  | v :: rest =>
    match pickMin rest with
    | none => some v
    | some u => if costLt u v then some u else some v

/-- Check `v` against every obstacle through the NFP cache: `v` is blocked
by an obstacle `(A, p)` iff `v - p` lies in the NFP of `A` and the part. -/
def obstaclesOk (st : NState) (obs : List (Region × Pt2)) (B : Region) (v : Pt2) :
    Bool × NState :=
  match obs with
  | [] => (true, st)
  | Ap :: rest =>
    let r := getNfp st Ap.1 B
    if (v.1 - Ap.2.1, v.2 - Ap.2.2) ∈ r.1 then (false, r.2)
    else obstaclesOk r.2 rest B v

/-- The same check without the cache. -/
def obstaclesOkP (obs : List (Region × Pt2)) (B : Region) (v : Pt2) : Bool :=
  obs.all (fun Ap => decide (Disjoint (rtrans Ap.2 Ap.1) (rtrans v B)))

/-- The feasible candidate positions of `B` on sheet `s`, scanning `cands`
in order. -/
def feasibleList (st : NState) (s : MSheet) (B : Region) (cands : List Pt2) :
    List Pt2 × NState :=
  match cands with
  | [] => ([], st)
  | v :: rest =>
    if InRect s.w s.h (rtrans v B) then
      let r1 := obstaclesOk st s.obstacles B v
      let r2 := feasibleList r1.2 s B rest
      (if r1.1 then v :: r2.1 else r2.1, r2.2)
    else feasibleList st s B rest

def feasibleListP (s : MSheet) (B : Region) (cands : List Pt2) : List Pt2 :=
  cands.filter (fun v =>
    decide (InRect s.w s.h (rtrans v B)) && obstaclesOkP s.obstacles B v)

/-- The best position of `B` on one sheet: the bottom-left-most feasible
candidate. -/
def sheetBest (st : NState) (s : MSheet) (B : Region) : Option Pt2 × NState :=
  let r := feasibleList st s B (rectCells s.w s.h)
  (pickMin r.1, r.2)

def sheetBestP (s : MSheet) (B : Region) : Option Pt2 :=
  pickMin (feasibleListP s B (rectCells s.w s.h))

/-- A candidate placement: sheet index, rotation index, position. -/
structure Cand where
  sheet : ℕ
  rot : ℕ
  pos : Pt2
deriving DecidableEq

/-- Keep the better of two candidate placements; ties go to the first
(lower sheet index, then smaller rotation index). -/
def combineCand : Option Cand → Option Cand → Option Cand
  | none, c => c
  | some a, none => some a
  | some a, some b => if costLt b.pos a.pos then some b else some a

/-- Index a list from `n` (the driver's own indexing helper). -/
def idxFrom {α : Type} (n : ℕ) : List α → List (ℕ × α)
  | [] => []
  | x :: xs => (n, x) :: idxFrom (n + 1) xs

/-- Try each rotation variant of the part on one sheet. -/
def bestOnVariants (st : NState) (s : MSheet) (i : ℕ) (kvs : List (ℕ × Region)) :
    Option Cand × NState :=
  match kvs with
  | [] => (none, st)
  | kB :: rest =>
    let r1 := sheetBest st s kB.2
    let r2 := bestOnVariants r1.2 s i rest
    (combineCand (r1.1.map (fun v => ⟨i, kB.1, v⟩)) r2.1, r2.2)

def bestOnVariantsP (s : MSheet) (i : ℕ) (kvs : List (ℕ × Region)) : Option Cand :=
  match kvs with
  | [] => none
  | kB :: rest =>
    combineCand ((sheetBestP s kB.2).map (fun v => ⟨i, kB.1, v⟩))
      (bestOnVariantsP s i rest)

/-- Try every sheet in index order. -/
def bestOnSheets (st : NState) (pairs : List (ℕ × MSheet)) (variants : List Region) :
    Option Cand × NState :=
  match pairs with
  | [] => (none, st)
  | p :: rest =>
    let r1 := bestOnVariants st p.2 p.1 (idxFrom 0 variants)
    let r2 := bestOnSheets r1.2 rest variants
    (combineCand r1.1 r2.1, r2.2)

def bestOnSheetsP (pairs : List (ℕ × MSheet)) (variants : List Region) : Option Cand :=
  match pairs with
  | [] => none
  | p :: rest =>
    combineCand (bestOnVariantsP p.2 p.1 (idxFrom 0 variants))
      (bestOnSheetsP rest variants)

def bestOverall (st : NState) (sheets : List MSheet) (variants : List Region) :
    Option Cand × NState :=
  bestOnSheets st (idxFrom 0 sheets) variants

def bestOverallP (sheets : List MSheet) (variants : List Region) : Option Cand :=
  bestOnSheetsP (idxFrom 0 sheets) variants

/-- A part: its rotation variants (canonical regions, one per rotation
tried by the driver). -/
structure MPart where
  variants : List Region

/-- A placement as the kernel reports it: the polygon's id (its original
index), the sheet it went to, and its transform (rotation index and
translation). -/
structure PlacementM where
  pid : ℕ
  sheet : ℕ
  rot : ℕ
  pos : Pt2
deriving DecidableEq

/-- Append a placed part to the chosen sheet's obstacle set. -/
def addObstacle (sheets : List MSheet) (i : ℕ) (shp : Region) (pos : Pt2) :
    List MSheet :=
  match sheets.get? i with
  | some s => sheets.set i { s with obstacles := s.obstacles ++ [(shp, pos)] }
  | none => sheets

/-- Place the parts in order; count the parts with no feasible position. -/
def placeAll (st : NState) (sheets : List MSheet) (parts : List (ℕ × MPart)) :
    List PlacementM × ℕ × NState :=
  match parts with
  | [] => ([], 0, st)
  | q :: rest =>
    let r := bestOverall st sheets q.2.variants
    match r.1 with
    | some c =>
      let shp := q.2.variants.getD c.rot ∅
      let r2 := placeAll r.2 (addObstacle sheets c.sheet shp c.pos) rest
      (⟨q.1, c.sheet, c.rot, c.pos⟩ :: r2.1, r2.2.1, r2.2.2)
    | none =>
      let r2 := placeAll r.2 sheets rest
      (r2.1, r2.2.1 + 1, r2.2.2)

def placeAllP (sheets : List MSheet) (parts : List (ℕ × MPart)) :
    List PlacementM × ℕ :=
  match parts with
  | [] => ([], 0)
  | q :: rest =>
    match bestOverallP sheets q.2.variants with
    | some c =>
      let shp := q.2.variants.getD c.rot ∅
      let r2 := placeAllP (addObstacle sheets c.sheet shp c.pos) rest
      (⟨q.1, c.sheet, c.rot, c.pos⟩ :: r2.1, r2.2)
    | none =>
      let r2 := placeAllP sheets rest
      (r2.1, r2.2 + 1)

/-- The bounding-box area of a region (the first-fit-decreasing sort key). -/
def bboxArea (P : Region) : ℤ :=
  if h : P.Nonempty then
    ((P.image Prod.fst).max' (h.image Prod.fst)
        - (P.image Prod.fst).min' (h.image Prod.fst) + 1) *
      ((P.image Prod.snd).max' (h.image Prod.snd)
        - (P.image Prod.snd).min' (h.image Prod.snd) + 1)
  else 0

/-- Stable insertion into a list sorted by descending key. -/
def insertDesc {α : Type} (key : α → ℤ) (x : α) : List α → List α
  | [] => [x]
  | y :: ys => if key y ≤ key x then x :: y :: ys else y :: insertDesc key x ys

/-- Stable sort by descending key. -/
def sortDesc {α : Type} (key : α → ℤ) : List α → List α
  | [] => []
  | x :: xs => insertDesc key x (sortDesc key xs)

/-- Modelled from the spec: `pack_decreasing`.  Parts are sorted by
descending bounding-box area (ties by original index), placed first-fit
over sheets and rotations through the NFP cache, and when
`partial_solution` is false and any part failed, no placements at all are
returned. -/
def pack_decreasing (sheets : List MSheet) (parts : List MPart) (st : NState)
    (partial_solution : Bool) : List PlacementM × ℕ × NState :=
  let sorted := sortDesc (fun q => bboxArea (q.2.variants.headD ∅)) (idxFrom 0 parts)
  let r := placeAll st sheets sorted
  if !partial_solution && decide (r.2.1 ≠ 0) then ([], r.2.1, r.2.2) else r

def pack_decreasingP (sheets : List MSheet) (parts : List MPart)
    (partial_solution : Bool) : List PlacementM × ℕ :=
  let sorted := sortDesc (fun q => bboxArea (q.2.variants.headD ∅)) (idxFrom 0 parts)
  let r := placeAllP sheets sorted
  if !partial_solution && decide (r.2 ≠ 0) then ([], r.2) else r

/-! ## The `pack` glue (lines 306-364) -/

/-- Line 35: the process-wide persistent state starts out empty. -/
def persistent_state : NState := []

/-- Which state a `pack` call ends up using. -/
inductive UsedState
  | custom
  | shared
  | fresh
deriving DecidableEq

/-- Line 307, the state-selection expression:
`custom_state if persist and custom_state is not None else persistent_state if persist else State()`. -/
def chooseState (persist : Bool) (custom_state : Option NState) : UsedState :=
  if persist && custom_state.isSome then .custom
  else if persist then .shared
  else .fresh

/-- Line 307 again, returning the state itself (`shared` is the current
value of the process-wide `persistent_state`). -/
def chosenState (persist : Bool) (custom_state : Option NState) (shared : NState) :
    NState :=
  if persist && custom_state.isSome then custom_state.getD []
  else if persist then shared
  else []

/-- Build a part's rotation variants from its ingested polygon:
`interpP` rasterizes a polygon-with-holes, `rotr` rotates a region by the
`k`-th of the `rotations` uniformly spaced angles. -/
def mkVariants (interpP : PolyWH → Region) (rotr : Region → ℕ → Region)
    (rotations : ℕ) (pw : PolyWH) : MPart :=
  ⟨(List.range rotations).map (rotr (interpP pw))⟩

/-- Lines 313-320: a sheet for the driver.  Only the **boundary** of each
polygon extracted from the sheet document is added as an obstacle
(`holes = [hole.boundary for hole in holes]`); `interpB` rasterizes the
boundary expression. -/
def mkSheetM (interpB : GExpr → Region) (tolerance offset : ℚ) (d : SvgDoc) :
    MSheet :=
  { w := d.width, h := d.height,
    obstacles := (extract_polygons d tolerance offset).2.map
      (fun pw => (interpB pw.boundary, ((0 : ℤ), (0 : ℤ)))) }

structure PackResult where
  placements : List PlacementM
  placed : ℕ
  failed : ℕ
  finalState : NState

/-- Lines 306-364, `pack`: ingest the shapes, build the sheets, run the
driver, and report the placements together with
`len(successfully_placed)` placed and
`len(polygons) - len(successfully_placed)` failed parts. -/
def packModel (interpP : PolyWH → Region) (interpB : GExpr → Region)
    (rotr : Region → ℕ → Region) (sheetDocs : List SvgDoc) (shapes : SvgDoc)
    (tolerance offset : ℚ) (partial_solution : Bool) (rotations : ℕ)
    (st : NState) : PackResult :=
  let polys := (extract_polygons shapes tolerance offset).2
  let parts := polys.map (mkVariants interpP rotr rotations)
  let sheets := sheetDocs.map (mkSheetM interpB tolerance offset)
  let r := pack_decreasing sheets parts st partial_solution
  { placements := r.1, placed := r.1.length, failed := parts.length - r.1.length,
    finalState := r.2.2 }

def packModelP (interpP : PolyWH → Region) (interpB : GExpr → Region)
    (rotr : Region → ℕ → Region) (sheetDocs : List SvgDoc) (shapes : SvgDoc)
    (tolerance offset : ℚ) (partial_solution : Bool) (rotations : ℕ) :
    List PlacementM × ℕ :=
  let polys := (extract_polygons shapes tolerance offset).2
  let parts := polys.map (mkVariants interpP rotr rotations)
  let sheets := sheetDocs.map (mkSheetM interpB tolerance offset)
  pack_decreasingP sheets parts partial_solution

/-! ## Metric model of dilation and erosion

Modelled from the spec: the offset operations of the external geometry
library are the Minkowski sum/difference of a region with a disk of the
given radius; simplification moves the region by at most the tolerance.
The conservative-approximation bounds of `extract_shapely_polygons` are
proved here over the plane with its (sup) product metric — the proofs use
only the metric axioms, so the choice of plane metric is immaterial. -/

abbrev Plane := ℝ × ℝ

/-- Minkowski dilation by a disk of radius `r`. -/
def mdilate (r : ℝ) (S : Set Plane) : Set Plane :=
  {x | ∃ y ∈ S, dist x y ≤ r}

/-- Minkowski erosion by a disk of radius `r`. -/
def merode (r : ℝ) (S : Set Plane) : Set Plane :=
  {x | ∀ y, dist y x ≤ r → y ∈ S}

theorem subset_mdilate {r : ℝ} (hr : 0 ≤ r) (S : Set Plane) : S ⊆ mdilate r S := by
  intro x hx
  exact ⟨x, hx, by simpa [dist_self] using hr⟩

theorem mdilate_mono_set {r : ℝ} {S T : Set Plane} (h : S ⊆ T) :
    mdilate r S ⊆ mdilate r T := by
  rintro x ⟨y, hy, hd⟩
  exact ⟨y, h hy, hd⟩

theorem mdilate_mono_radius {r r' : ℝ} (h : r ≤ r') (S : Set Plane) :
    mdilate r S ⊆ mdilate r' S := by
  rintro x ⟨y, hy, hd⟩
  exact ⟨y, hy, hd.trans h⟩

theorem mdilate_mdilate {a b : ℝ} (S : Set Plane) :
    mdilate a (mdilate b S) ⊆ mdilate (a + b) S := by
  rintro x ⟨y, ⟨z, hz, hyz⟩, hxy⟩
  exact ⟨z, hz, (dist_triangle x y z).trans (add_le_add hxy hyz)⟩

theorem merode_subset {r : ℝ} (hr : 0 ≤ r) (S : Set Plane) : merode r S ⊆ S := by
  intro x hx
  exact hx x (by simpa [dist_self] using hr)

/-- A region dilated by `a` survives erosion by `b` of the `(a+b)`-dilation:
the breathing-room lemma behind the `1.5 × tolerance` choice. -/
theorem mdilate_subset_merode {a b : ℝ} (S : Set Plane) :
    mdilate a S ⊆ merode b (mdilate (a + b) S) := by
  rintro x ⟨z, hz, hxz⟩ y hyx
  refine ⟨z, hz, (dist_triangle y x z).trans ?_⟩
  calc dist y x + dist x z ≤ b + a := add_le_add hyx hxz
    _ = a + b := by ring

theorem compl_merode (r : ℝ) (S : Set Plane) :
    (merode r S)ᶜ = mdilate r Sᶜ := by
  ext x
  simp only [merode, mdilate, Set.mem_compl_iff, Set.mem_setOf_eq]
  constructor
  · intro h
    rcases not_forall.mp h with ⟨y, hy⟩
    rcases Classical.not_imp.mp hy with ⟨hd, hns⟩
    exact ⟨y, hns, by simpa [dist_comm] using hd⟩
  · rintro ⟨y, hns, hd⟩ hall
    exact hns (hall y (by simpa [dist_comm] using hd))

theorem compl_mdilate (r : ℝ) (S : Set Plane) :
    (mdilate r S)ᶜ = merode r Sᶜ := by
  ext x
  simp only [merode, mdilate, Set.mem_compl_iff, Set.mem_setOf_eq]
  constructor
  · intro h y hd hy
    exact h ⟨y, hy, by simpa [dist_comm] using hd⟩
  · rintro h ⟨y, hy, hd⟩
    exact h y (by simpa [dist_comm] using hd) hy

/-! ## Lemmas: the NFP and its cache -/

/-- The NFP membership criterion: `v` is a blocked position for orbiter `B`
against stationary `A` placed at `p` exactly when the two placed regions
overlap. -/
theorem mem_nfp_iff_overlap {A B : Region} {p v : Pt2} :
    (v.1 - p.1, v.2 - p.2) ∈ nfpSet A B ↔
      ¬ Disjoint (rtrans p A) (rtrans v B) := by
  rw [Finset.not_disjoint_iff]
  constructor
  · intro h
    rw [nfpSet, Finset.mem_image] at h
    rcases h with ⟨ab, hab, heq⟩
    rcases Finset.mem_product.mp hab with ⟨ha, hb⟩
    rw [Prod.ext_iff] at heq
    refine ⟨(ab.1.1 + p.1, ab.1.2 + p.2), ?_, ?_⟩
    · exact Finset.mem_image.mpr ⟨ab.1, ha, rfl⟩
    · refine Finset.mem_image.mpr ⟨ab.2, hb, ?_⟩
      have h1 := heq.1
      have h2 := heq.2
      simp only at h1 h2
      rw [Prod.ext_iff]
      constructor
      · simp only
        omega
      · simp only
        omega
  · rintro ⟨x, hxA, hxB⟩
    rw [rtrans, Finset.mem_image] at hxA hxB
    rcases hxA with ⟨a, ha, hax⟩
    rcases hxB with ⟨b, hb, hbx⟩
    rw [nfpSet, Finset.mem_image]
    refine ⟨(a, b), Finset.mem_product.mpr ⟨ha, hb⟩, ?_⟩
    have h1 := (hax.trans hbx.symm)
    rw [Prod.ext_iff] at h1
    have h11 := h1.1
    have h12 := h1.2
    simp only at h11 h12
    rw [Prod.ext_iff]
    constructor
    · simp only
      omega
    · simp only
      omega

theorem consistent_nil : Consistent [] := by
  intro k v h
  simp [lookupNfp] at h

theorem getNfp_fst {st : NState} (hc : Consistent st) (A B : Region) :
    (getNfp st A B).1 = nfpSet A B := by
  unfold getNfp
  cases h : lookupNfp st (A, B) with
  | none => rfl
  | some r => simpa using hc (A, B) r h

theorem getNfp_snd {st : NState} (hc : Consistent st) (A B : Region) :
    Consistent (getNfp st A B).2 := by
  unfold getNfp
  cases h : lookupNfp st (A, B) with
  | none =>
    intro k v hv
    simp only [lookupNfp] at hv
    by_cases hk : (A, B) = k
    · rw [if_pos hk] at hv
      cases hv
      rw [← hk]
    · rw [if_neg hk] at hv
      exact hc k v hv
  | some r => exact hc

/-! ## Lemmas: stateful search equals pure search, preserving consistency -/

theorem obstaclesOk_eq {st : NState} (hc : Consistent st)
    (obs : List (Region × Pt2)) (B : Region) (v : Pt2) :
    (obstaclesOk st obs B v).1 = obstaclesOkP obs B v ∧
      Consistent (obstaclesOk st obs B v).2 := by
  induction obs generalizing st with
  | nil => exact ⟨rfl, hc⟩
  | cons Ap rest ih =>
    have hfst := getNfp_fst hc Ap.1 B
    have hsnd := getNfp_snd hc Ap.1 B
    simp only [obstaclesOk, obstaclesOkP, List.all_cons]
    by_cases hmem : (v.1 - Ap.2.1, v.2 - Ap.2.2) ∈ (getNfp st Ap.1 B).1
    · rw [if_pos hmem]
      have hnd : ¬ Disjoint (rtrans Ap.2 Ap.1) (rtrans v B) := by
        rw [hfst] at hmem
        exact mem_nfp_iff_overlap.mp hmem
      refine ⟨?_, hsnd⟩
      simp [hnd]
    · rw [if_neg hmem]
      have hd : Disjoint (rtrans Ap.2 Ap.1) (rtrans v B) := by
        by_contra hnd
        exact hmem (by rw [hfst]; exact mem_nfp_iff_overlap.mpr hnd)
      rcases ih hsnd with ⟨h1, h2⟩
      refine ⟨?_, h2⟩
      simp [hd, h1, obstaclesOkP]

theorem feasibleList_eq {st : NState} (hc : Consistent st) (s : MSheet)
    (B : Region) (cands : List Pt2) :
    (feasibleList st s B cands).1 = feasibleListP s B cands ∧
      Consistent (feasibleList st s B cands).2 := by
  induction cands generalizing st with
  | nil => exact ⟨rfl, hc⟩
  | cons v rest ih =>
    simp only [feasibleList, feasibleListP, List.filter_cons]
    by_cases hin : InRect s.w s.h (rtrans v B)
    · rw [if_pos hin]
      rcases obstaclesOk_eq hc s.obstacles B v with ⟨h1, h2⟩
      rcases ih h2 with ⟨h3, h4⟩
      refine ⟨?_, h4⟩
      by_cases hok : obstaclesOkP s.obstacles B v = true
      · simp [hin, hok, h1, h3, feasibleListP]
      · simp only [Bool.not_eq_true] at hok
        simp [hin, hok, h1, h3, feasibleListP]
    · rw [if_neg hin]
      rcases ih hc with ⟨h3, h4⟩
      refine ⟨?_, h4⟩
      simp [hin, feasibleListP, h3]

theorem sheetBest_eq {st : NState} (hc : Consistent st) (s : MSheet) (B : Region) :
    (sheetBest st s B).1 = sheetBestP s B ∧ Consistent (sheetBest st s B).2 := by
  rcases feasibleList_eq hc s B (rectCells s.w s.h) with ⟨h1, h2⟩
  exact ⟨by simp [sheetBest, sheetBestP, h1], h2⟩

theorem bestOnVariants_eq {st : NState} (hc : Consistent st) (s : MSheet)
    (i : ℕ) (kvs : List (ℕ × Region)) :
    (bestOnVariants st s i kvs).1 = bestOnVariantsP s i kvs ∧
      Consistent (bestOnVariants st s i kvs).2 := by
  induction kvs generalizing st with
  | nil => exact ⟨rfl, hc⟩
  | cons kB rest ih =>
    rcases sheetBest_eq hc s kB.2 with ⟨h1, h2⟩
    rcases ih h2 with ⟨h3, h4⟩
    exact ⟨by simp [bestOnVariants, bestOnVariantsP, h1, h3], h4⟩

theorem bestOnSheets_eq {st : NState} (hc : Consistent st)
    (pairs : List (ℕ × MSheet)) (variants : List Region) :
    (bestOnSheets st pairs variants).1 = bestOnSheetsP pairs variants ∧
      Consistent (bestOnSheets st pairs variants).2 := by
  induction pairs generalizing st with
  | nil => exact ⟨rfl, hc⟩
  | cons p rest ih =>
    rcases bestOnVariants_eq hc p.2 p.1 (idxFrom 0 variants) with ⟨h1, h2⟩
    rcases ih h2 with ⟨h3, h4⟩
    exact ⟨by simp [bestOnSheets, bestOnSheetsP, h1, h3], h4⟩

theorem bestOverall_eq {st : NState} (hc : Consistent st)
    (sheets : List MSheet) (variants : List Region) :
    (bestOverall st sheets variants).1 = bestOverallP sheets variants ∧
      Consistent (bestOverall st sheets variants).2 :=
  bestOnSheets_eq hc (idxFrom 0 sheets) variants

theorem placeAll_eq {st : NState} (hc : Consistent st) (sheets : List MSheet)
    (parts : List (ℕ × MPart)) :
    (placeAll st sheets parts).1 = (placeAllP sheets parts).1 ∧
      (placeAll st sheets parts).2.1 = (placeAllP sheets parts).2 ∧
      Consistent (placeAll st sheets parts).2.2 := by
  induction parts generalizing st sheets with
  | nil => exact ⟨rfl, rfl, hc⟩
  | cons q rest ih =>
    rcases bestOverall_eq hc sheets q.2.variants with ⟨h1, h2⟩
    simp only [placeAll, placeAllP, h1]
    cases hb : bestOverallP sheets q.2.variants with
    | some c =>
      rcases ih h2 (addObstacle sheets c.sheet (q.2.variants.getD c.rot ∅) c.pos)
        with ⟨h3, h4, h5⟩
      simp only [List.getD_eq_getElem?_getD] at h3 h4
      exact ⟨by simp [h3], by simp [h4], h5⟩
    | none =>
      rcases ih h2 sheets with ⟨h3, h4, h5⟩
      exact ⟨h3, by simp [h4], h5⟩

theorem pack_decreasing_eq {st : NState} (hc : Consistent st)
    (sheets : List MSheet) (parts : List MPart) (partial_solution : Bool) :
    (pack_decreasing sheets parts st partial_solution).1 =
        (pack_decreasingP sheets parts partial_solution).1 ∧
      (pack_decreasing sheets parts st partial_solution).2.1 =
        (pack_decreasingP sheets parts partial_solution).2 ∧
      Consistent (pack_decreasing sheets parts st partial_solution).2.2 := by
  rcases placeAll_eq hc sheets
      (sortDesc (fun q => bboxArea (q.2.variants.headD ∅)) (idxFrom 0 parts))
    with ⟨h1, h2, h3⟩
  simp only [pack_decreasing, pack_decreasingP, h1, h2]
  by_cases hf :
      !partial_solution &&
        decide ((placeAllP sheets
          (sortDesc (fun q => bboxArea (q.2.variants.headD ∅)) (idxFrom 0 parts))).2 ≠ 0)
  · rw [if_pos hf, if_pos hf]
    exact ⟨rfl, rfl, h3⟩
  · rw [if_neg hf, if_neg hf]
    exact ⟨h1, h2, h3⟩

theorem packModel_eq {st : NState} (hc : Consistent st)
    (interpP : PolyWH → Region) (interpB : GExpr → Region)
    (rotr : Region → ℕ → Region) (sheetDocs : List SvgDoc) (shapes : SvgDoc)
    (tolerance offset : ℚ) (partial_solution : Bool) (rotations : ℕ) :
    (packModel interpP interpB rotr sheetDocs shapes tolerance offset
        partial_solution rotations st).placements =
      (packModelP interpP interpB rotr sheetDocs shapes tolerance offset
        partial_solution rotations).1 ∧
    Consistent (packModel interpP interpB rotr sheetDocs shapes tolerance offset
        partial_solution rotations st).finalState := by
  rcases pack_decreasing_eq hc
      (sheetDocs.map (mkSheetM interpB tolerance offset))
      ((extract_polygons shapes tolerance offset).2.map (mkVariants interpP rotr rotations))
      partial_solution with ⟨h1, _, h3⟩
  exact ⟨h1, h3⟩

/-! ## Lemmas: soundness of the pure search -/

theorem pickMin_mem {l : List Pt2} {v : Pt2} (h : pickMin l = some v) : v ∈ l := by
  induction l with
  | nil => simp [pickMin] at h
  | cons x rest ih =>
    simp only [pickMin] at h
    split at h
    · cases h
      exact List.mem_cons_self _ _
    · rename_i u heq
      split at h
      · cases h
        exact List.mem_cons_of_mem _ (ih heq)
      · cases h
        exact List.mem_cons_self _ _

theorem feasibleListP_sound {s : MSheet} {B : Region} {cands : List Pt2} {v : Pt2}
    (h : v ∈ feasibleListP s B cands) :
    InRect s.w s.h (rtrans v B) ∧ obstaclesOkP s.obstacles B v = true := by
  rcases List.mem_filter.mp h with ⟨_, hcond⟩
  rcases Bool.and_eq_true_iff.mp hcond with ⟨h1, h2⟩
  exact ⟨of_decide_eq_true h1, h2⟩

theorem sheetBestP_sound {s : MSheet} {B : Region} {v : Pt2}
    (h : sheetBestP s B = some v) :
    InRect s.w s.h (rtrans v B) ∧ obstaclesOkP s.obstacles B v = true :=
  feasibleListP_sound (pickMin_mem h)

theorem combineCand_cases {a b : Option Cand} {c : Cand}
    (h : combineCand a b = some c) : a = some c ∨ b = some c := by
  match a, b with
  | none, b => exact Or.inr h
  | some x, none => exact Or.inl h
  | some x, some y =>
    simp only [combineCand] at h
    by_cases hlt : costLt y.pos x.pos = true
    · rw [if_pos hlt] at h
      exact Or.inr h
    · rw [if_neg hlt] at h
      exact Or.inl h

theorem bestOnVariantsP_sound {s : MSheet} {i : ℕ} {kvs : List (ℕ × Region)}
    {c : Cand} (h : bestOnVariantsP s i kvs = some c) :
    c.sheet = i ∧ ∃ kB ∈ kvs, c.rot = kB.1 ∧ sheetBestP s kB.2 = some c.pos := by
  induction kvs with
  | nil => simp [bestOnVariantsP] at h
  | cons kB rest ih =>
    rcases combineCand_cases h with h1 | h1
    · cases hv : sheetBestP s kB.2 with
      | none =>
        rw [hv] at h1
        exact Option.noConfusion h1
      | some v =>
        rw [hv] at h1
        have h1' : Cand.mk i kB.1 v = c := Option.some.inj h1
        cases h1'
        exact ⟨rfl, kB, List.mem_cons_self kB rest, rfl, hv⟩
    · rcases ih h1 with ⟨hs, kB', hmem, hrot, hbest⟩
      exact ⟨hs, kB', List.mem_cons_of_mem kB hmem, hrot, hbest⟩

theorem bestOnSheetsP_sound {pairs : List (ℕ × MSheet)} {variants : List Region}
    {c : Cand} (h : bestOnSheetsP pairs variants = some c) :
    ∃ p ∈ pairs, bestOnVariantsP p.2 p.1 (idxFrom 0 variants) = some c := by
  induction pairs with
  | nil => simp [bestOnSheetsP] at h
  | cons p rest ih =>
    rcases combineCand_cases h with h1 | h1
    · exact ⟨p, List.mem_cons_self p rest, h1⟩
    · rcases ih h1 with ⟨p', hmem, hb⟩
      exact ⟨p', List.mem_cons_of_mem p hmem, hb⟩

theorem idxFrom_mem {α : Type} {n : ℕ} {l : List α} {q : ℕ × α}
    (h : q ∈ idxFrom n l) : n ≤ q.1 ∧ l.get? (q.1 - n) = some q.2 := by
  induction l generalizing n with
  | nil => simp [idxFrom] at h
  | cons x xs ih =>
    simp only [idxFrom, List.mem_cons] at h
    rcases h with h | h
    · subst h
      simp
    · rcases ih h with ⟨h1, h2⟩
      refine ⟨by omega, ?_⟩
      have hq : q.1 - n = (q.1 - (n + 1)) + 1 := by omega
      rw [hq]
      simpa using h2

theorem idxFrom_zero_mem {α : Type} {l : List α} {q : ℕ × α}
    (h : q ∈ idxFrom 0 l) : l.get? q.1 = some q.2 := by
  have := (idxFrom_mem h).2
  simpa using this

/-- Soundness of the whole search: a returned candidate names a real sheet
and a real rotation variant, and its position is feasible there. -/
theorem bestOverallP_sound {sheets : List MSheet} {variants : List Region}
    {c : Cand} (h : bestOverallP sheets variants = some c) :
    ∃ s, sheets.get? c.sheet = some s ∧ ∃ B, variants.get? c.rot = some B ∧
      InRect s.w s.h (rtrans c.pos B) ∧ obstaclesOkP s.obstacles B c.pos = true := by
  rcases bestOnSheetsP_sound h with ⟨p, hp, hbv⟩
  rcases bestOnVariantsP_sound hbv with ⟨hsheet, kB, hkB, hrot, hbest⟩
  have hps := idxFrom_zero_mem hp
  have hks := idxFrom_zero_mem hkB
  refine ⟨p.2, by rw [hsheet]; exact hps, kB.2, by rw [hrot]; exact hks, ?_⟩
  exact sheetBestP_sound hbest

/-! ## Lemmas: list plumbing -/

theorem get?_map_eq {α β : Type} (f : α → β) (l : List α) (i : ℕ) :
    (l.map f).get? i = (l.get? i).map f := by
  induction l generalizing i with
  | nil => simp
  | cons x xs ih =>
    cases i with
    | zero => simp
    | succ n => simp [ih n]

theorem getD_of_get? {α : Type} {l : List α} {i : ℕ} {x : α} (d : α)
    (h : l.get? i = some x) : l.getD i d = x := by
  rw [List.getD_eq_getElem?_getD, ← List.get?_eq_getElem?, h]
  rfl

theorem list_set_get_self {α : Type} (l : List α) (i : ℕ) (a x : α)
    (h : l.get? i = some x) : (l.set i a).get? i = some a := by
  induction l generalizing i with
  | nil => simp at h
  | cons y ys ih =>
    cases i with
    | zero => simp
    | succ n =>
      simp only [List.set_cons_succ, List.get?_cons_succ]
      exact ih n (by simpa using h)

theorem list_set_get_other {α : Type} (l : List α) (i j : ℕ) (a : α)
    (h : j ≠ i) : (l.set i a).get? j = l.get? j := by
  induction l generalizing i j with
  | nil => simp
  | cons y ys ih =>
    cases i with
    | zero =>
      cases j with
      | zero => exact absurd rfl h
      | succ m => simp
    | succ n =>
      cases j with
      | zero => simp
      | succ m =>
        simp only [List.set_cons_succ, List.get?_cons_succ]
        exact ih n m (by omega)

theorem addObstacle_get_self {sheets : List MSheet} {i : ℕ} {s0 : MSheet}
    (hi : sheets.get? i = some s0) (shp : Region) (pos : Pt2) :
    (addObstacle sheets i shp pos).get? i =
      some { s0 with obstacles := s0.obstacles ++ [(shp, pos)] } := by
  unfold addObstacle
  rw [hi]
  exact list_set_get_self sheets i _ s0 hi

theorem addObstacle_get_other {sheets : List MSheet} {i : ℕ} (shp : Region)
    (pos : Pt2) (j : ℕ) (h : j ≠ i) :
    (addObstacle sheets i shp pos).get? j = sheets.get? j := by
  unfold addObstacle
  cases hi : sheets.get? i with
  | none => rfl
  | some s0 => exact list_set_get_other sheets i j _ h

theorem idxFrom_map_fst_nodup {α : Type} (n : ℕ) (l : List α) :
    ((idxFrom n l).map Prod.fst).Nodup := by
  induction l generalizing n with
  | nil => simp [idxFrom]
  | cons x xs ih =>
    simp only [idxFrom, List.map_cons, List.nodup_cons]
    refine ⟨?_, ih (n + 1)⟩
    intro hmem
    rcases List.mem_map.mp hmem with ⟨q, hq, hfst⟩
    have h1 := (idxFrom_mem hq).1
    omega

theorem insertDesc_perm {α : Type} (key : α → ℤ) (x : α) (l : List α) :
    (insertDesc key x l).Perm (x :: l) := by
  induction l with
  | nil => exact List.Perm.refl _
  | cons y ys ih =>
    simp only [insertDesc]
    by_cases hk : key y ≤ key x
    · rw [if_pos hk]
    · rw [if_neg hk]
      exact (List.Perm.cons y ih).trans (List.Perm.swap x y ys)

theorem sortDesc_perm {α : Type} (key : α → ℤ) (l : List α) :
    (sortDesc key l).Perm l := by
  induction l with
  | nil => exact List.Perm.refl _
  | cons x xs ih =>
    exact (insertDesc_perm key x (sortDesc key xs)).trans (List.Perm.cons x ih)

/-! ## Lemmas: invariants of the pure driver -/

theorem placeAllP_count (sheets : List MSheet) (parts : List (ℕ × MPart)) :
    (placeAllP sheets parts).1.length + (placeAllP sheets parts).2 = parts.length := by
  induction parts generalizing sheets with
  | nil => simp [placeAllP]
  | cons q rest ih =>
    simp only [placeAllP]
    cases hb : bestOverallP sheets q.2.variants with
    | some c =>
      have h := ih (addObstacle sheets c.sheet (q.2.variants.getD c.rot ∅) c.pos)
      simp only [List.length_cons]
      omega
    | none =>
      have h := ih sheets
      simp only [List.length_cons]
      omega

theorem placeAllP_pids_sublist (sheets : List MSheet) (parts : List (ℕ × MPart)) :
    ((placeAllP sheets parts).1.map (fun pl => pl.pid)).Sublist
      (parts.map Prod.fst) := by
  induction parts generalizing sheets with
  | nil => simp [placeAllP]
  | cons q rest ih =>
    simp only [placeAllP, List.map_cons]
    cases hb : bestOverallP sheets q.2.variants with
    | some c =>
      exact List.Sublist.cons₂ _
        (ih (addObstacle sheets c.sheet (q.2.variants.getD c.rot ∅) c.pos))
    | none => exact List.Sublist.cons _ (ih sheets)

/-- The region a placement occupies, looked up from the canonical parts. -/
def plRegion (allParts : List MPart) (pl : PlacementM) : Region :=
  rtrans pl.pos ((allParts.getD pl.pid ⟨[]⟩).variants.getD pl.rot ∅)

/-- The driver invariant: every placement of the pure driver fits the
rectangle of its sheet, avoids every obstacle that sheet started with, and
placements on a common sheet are pairwise disjoint. -/
theorem placeAllP_sound (parts : List (ℕ × MPart)) (sheets : List MSheet)
    (allParts : List MPart)
    (hparts : ∀ q ∈ parts, allParts.get? q.1 = some q.2) :
    (∀ pl ∈ (placeAllP sheets parts).1, ∀ s0, sheets.get? pl.sheet = some s0 →
        InRect s0.w s0.h (plRegion allParts pl) ∧
        ∀ ob ∈ s0.obstacles, Disjoint (rtrans ob.2 ob.1) (plRegion allParts pl)) ∧
      List.Pairwise (fun a b => a.sheet = b.sheet →
        Disjoint (plRegion allParts a) (plRegion allParts b))
        (placeAllP sheets parts).1 := by
  induction parts generalizing sheets with
  | nil => exact ⟨by simp [placeAllP], by simp [placeAllP]⟩
  | cons q rest ih =>
    have hq : allParts.get? q.1 = some q.2 := hparts q (List.mem_cons_self q rest)
    have hrest : ∀ q' ∈ rest, allParts.get? q'.1 = some q'.2 :=
      fun q' hq' => hparts q' (List.mem_cons_of_mem q hq')
    simp only [placeAllP]
    cases hb : bestOverallP sheets q.2.variants with
    | none => exact ih sheets hrest
    | some c =>
      rcases bestOverallP_sound hb with ⟨s0, hs0, B, hB, hin, hok⟩
      have hshp : q.2.variants.getD c.rot ∅ = B := getD_of_get? ∅ hB
      have hreg : plRegion allParts ⟨q.1, c.sheet, c.rot, c.pos⟩ = rtrans c.pos B := by
        unfold plRegion
        simp only
        rw [getD_of_get? ⟨[]⟩ hq, getD_of_get? ∅ hB]
      have hext : (addObstacle sheets c.sheet (q.2.variants.getD c.rot ∅) c.pos).get?
          c.sheet = some { s0 with obstacles := s0.obstacles ++ [(B, c.pos)] } := by
        rw [hshp]
        exact addObstacle_get_self hs0 B c.pos
      rcases ih (addObstacle sheets c.sheet (q.2.variants.getD c.rot ∅) c.pos) hrest
        with ⟨ih1, ih2⟩
      constructor
      · intro pl hpl s1 hs1
        rcases List.mem_cons.mp hpl with hpl0 | hplrest
        · subst hpl0
          have hseq : s1 = s0 := by
            rw [hs0] at hs1
            exact (Option.some.inj hs1).symm
          subst hseq
          rw [hreg]
          refine ⟨hin, ?_⟩
          intro ob hob
          have hall := List.all_eq_true.mp hok ob hob
          exact of_decide_eq_true hall
        · by_cases hsh : pl.sheet = c.sheet
          · have hs1' : s1 = s0 := by
              rw [hsh] at hs1
              rw [hs0] at hs1
              exact (Option.some.inj hs1).symm
            have h2 := ih1 pl hplrest
              { s0 with obstacles := s0.obstacles ++ [(B, c.pos)] }
              (by rw [hsh]; exact hext)
            rw [hs1']
            refine ⟨h2.1, ?_⟩
            intro ob hob
            exact h2.2 ob (List.mem_append_left _ hob)
          · have h2 := ih1 pl hplrest s1
              (by rw [addObstacle_get_other _ _ _ hsh]; exact hs1)
            exact h2
      · refine List.Pairwise.cons ?_ ih2
        intro pl hpl hsheq
        have hcs : c.sheet = pl.sheet := hsheq
        have h2 := ih1 pl hpl { s0 with obstacles := s0.obstacles ++ [(B, c.pos)] }
          (by rw [← hcs]; exact hext)
        have hdisj := h2.2 (B, c.pos)
          (List.mem_append_right _ (List.mem_singleton.mpr rfl))
        rw [hreg]
        exact hdisj

/-! ## Lemmas: the ingest pipeline -/

/-- The geometric half of the retention test: a path-like element with at
least one segment whose first subpath is closed within the tolerance. -/
def elemKeep (e : Element) (tolerance : ℚ) : Bool :=
  match e with
  | .path _ p => decide (p.segCount ≠ 0) && is_closed p tolerance
  | .shape _ p => decide (p.segCount ≠ 0) && is_closed p tolerance
  | .other _ => false

theorem keepElement_fst {e : Element} {tolerance : ℚ} {ep : Element × PathElem}
    (h : keepElement e tolerance = some ep) : ep.1 = e := by
  unfold keepElement at h
  by_cases hh : hiddenSkip e
  · rw [if_pos hh] at h
    exact Option.noConfusion h
  · rw [if_neg hh] at h
    cases e with
    | path vs p =>
      simp only at h
      split at h
      · cases h; rfl
      · exact Option.noConfusion h
    | shape vs p =>
      simp only at h
      split at h
      · cases h; rfl
      · exact Option.noConfusion h
    | other vs => exact Option.noConfusion h

theorem keepElement_isSome (e : Element) (tolerance : ℚ) :
    (keepElement e tolerance).isSome = (!hiddenSkip e && elemKeep e tolerance) := by
  unfold keepElement elemKeep
  by_cases hh : hiddenSkip e
  · simp [hh]
  · cases e with
    | path vs p =>
      simp only [if_neg hh]
      by_cases h1 : p.segCount = 0
      · simp [h1]
      · by_cases h2 : is_closed p tolerance = true
        · simp [h1, h2, Bool.eq_false_iff.mpr hh]
        · simp only [Bool.not_eq_true] at h2
          simp [h1, h2]
    | shape vs p =>
      simp only [if_neg hh]
      by_cases h1 : p.segCount = 0
      · simp [h1]
      · by_cases h2 : is_closed p tolerance = true
        · simp [h1, h2, Bool.eq_false_iff.mpr hh]
        · simp only [Bool.not_eq_true] at h2
          simp [h1, h2]
    | other vs => simp [hh]

/-- The retained element list is the filter of the document's elements by
"not skipped as hidden, path-like, non-empty, closed". -/
theorem retained_eq_filter (doc : SvgDoc) (tolerance : ℚ) :
    (extract_shapely_polygons doc tolerance).1 =
      doc.elements.filter (fun e => !hiddenSkip e && elemKeep e tolerance) := by
  unfold extract_shapely_polygons
  induction doc.elements with
  | nil => rfl
  | cons e rest ih =>
    simp only [List.filterMap_cons, List.filter_cons]
    cases he : keepElement e tolerance with
    | none =>
      have hs : (!hiddenSkip e && elemKeep e tolerance) = false := by
        have := keepElement_isSome e tolerance
        rw [he] at this
        exact this.symm
      rw [hs]
      simpa using ih
    | some ep =>
      have hs : (!hiddenSkip e && elemKeep e tolerance) = true := by
        have := keepElement_isSome e tolerance
        rw [he] at this
        exact this.symm
      rw [hs]
      simp only [List.map_cons, if_pos]
      rw [keepElement_fst he]
      simpa using ih

theorem shapely_lengths (doc : SvgDoc) (tolerance : ℚ) :
    (extract_shapely_polygons doc tolerance).2.length =
      (extract_shapely_polygons doc tolerance).1.length := by
  simp [extract_shapely_polygons]

theorem shapely_pair_mem {doc : SvgDoc} {tolerance : ℚ} {pr : GExpr × List GExpr}
    (h : pr ∈ (extract_shapely_polygons doc tolerance).2) :
    ∃ p : PathElem, pr = (boundaryOf p tolerance, holesOf p tolerance) := by
  unfold extract_shapely_polygons at h
  simp only [List.mem_map] at h
  rcases h with ⟨ep, _, heq⟩
  exact ⟨ep.2, heq.symm⟩

theorem holesOf_mem {p : PathElem} {tolerance : ℚ} {hx : GExpr}
    (h : hx ∈ holesOf p tolerance) :
    ∃ sp : SubPath, isClosedSub sp tolerance = true ∧
      hx = GExpr.simplify (GExpr.erode (GExpr.disc sp.pid tolerance)
        (3 / 2 * tolerance)) tolerance := by
  unfold holesOf at h
  rcases List.mem_filterMap.mp h with ⟨sp, _, heq⟩
  split at heq
  · rename_i hc
    cases heq
    exact ⟨sp, hc, rfl⟩
  · exact Option.noConfusion heq

/-! ## Lemmas: lifting the driver invariants to `pack_decreasing` -/

theorem idxFrom_length {α : Type} (n : ℕ) (l : List α) :
    (idxFrom n l).length = l.length := by
  induction l generalizing n with
  | nil => rfl
  | cons x xs ih => simp [idxFrom, ih]

theorem pack_decreasingP_sound (sheets : List MSheet) (parts : List MPart)
    (partial_solution : Bool) :
    (∀ pl ∈ (pack_decreasingP sheets parts partial_solution).1,
        ∀ s0, sheets.get? pl.sheet = some s0 →
          InRect s0.w s0.h (plRegion parts pl) ∧
          ∀ ob ∈ s0.obstacles, Disjoint (rtrans ob.2 ob.1) (plRegion parts pl)) ∧
      List.Pairwise (fun a b => a.sheet = b.sheet →
        Disjoint (plRegion parts a) (plRegion parts b))
        (pack_decreasingP sheets parts partial_solution).1 := by
  have hparts : ∀ q ∈ sortDesc (fun q => bboxArea (q.2.variants.headD ∅))
      (idxFrom 0 parts), parts.get? q.1 = some q.2 := by
    intro q hq
    exact idxFrom_zero_mem ((sortDesc_perm _ _).mem_iff.mp hq)
  have h := placeAllP_sound _ sheets parts hparts
  simp only [pack_decreasingP]
  split
  · exact ⟨by simp, by simp⟩
  · exact h

theorem pack_decreasingP_length_le (sheets : List MSheet) (parts : List MPart)
    (partial_solution : Bool) :
    (pack_decreasingP sheets parts partial_solution).1.length ≤ parts.length := by
  have hc := placeAllP_count sheets
    (sortDesc (fun q => bboxArea (q.2.variants.headD ∅)) (idxFrom 0 parts))
  have hl : (sortDesc (fun q => bboxArea (q.2.variants.headD ∅))
      (idxFrom 0 parts)).length = parts.length := by
    rw [(sortDesc_perm _ _).length_eq, idxFrom_length]
  simp only [pack_decreasingP]
  split
  · simp
  · omega

theorem pack_decreasingP_nodup (sheets : List MSheet) (parts : List MPart)
    (partial_solution : Bool) :
    ((pack_decreasingP sheets parts partial_solution).1.map
      (fun pl => pl.pid)).Nodup := by
  have hs := placeAllP_pids_sublist sheets
    (sortDesc (fun q => bboxArea (q.2.variants.headD ∅)) (idxFrom 0 parts))
  have hperm : ((sortDesc (fun q => bboxArea (q.2.variants.headD ∅))
      (idxFrom 0 parts)).map Prod.fst).Perm ((idxFrom 0 parts).map Prod.fst) :=
    (sortDesc_perm _ _).map Prod.fst
  have hnd : ((sortDesc (fun q => bboxArea (q.2.variants.headD ∅))
      (idxFrom 0 parts)).map Prod.fst).Nodup :=
    (hperm.nodup_iff).mpr (idxFrom_map_fst_nodup 0 parts)
  simp only [pack_decreasingP]
  split
  · simp
  · exact hnd.sublist hs

theorem pack_decreasingP_all_or_nothing (sheets : List MSheet) (parts : List MPart) :
    (pack_decreasingP sheets parts false).1.length = parts.length ∨
      (pack_decreasingP sheets parts false).1 = [] := by
  have hc := placeAllP_count sheets
    (sortDesc (fun q => bboxArea (q.2.variants.headD ∅)) (idxFrom 0 parts))
  have hl : (sortDesc (fun q => bboxArea (q.2.variants.headD ∅))
      (idxFrom 0 parts)).length = parts.length := by
    rw [(sortDesc_perm _ _).length_eq, idxFrom_length]
  simp only [pack_decreasingP]
  split
  · exact Or.inr rfl
  · rename_i hcond
    left
    have hz : (placeAllP sheets (sortDesc (fun q => bboxArea (q.2.variants.headD ∅))
        (idxFrom 0 parts))).2 = 0 := by
      by_contra hnz
      exact hcond (by simpa using hnz)
    omega

/-! ## Concrete fixtures used by counterexamples and witnesses -/

def cexPathElem : PathElem := ⟨1, [⟨0, 0⟩]⟩

def cexHiddenElem : Element :=
  .path [("hidden", ""), ("visibility", "hidden")] cexPathElem

def cexHiddenDoc : SvgDoc := ⟨100, 100, [cexHiddenElem]⟩

def wsub0 : SubPath := ⟨0, 0⟩

def wsub1 : SubPath := ⟨1, 0⟩

def wPathElem : PathElem := ⟨2, [wsub0, wsub1]⟩

def wElem : Element := .path [] wPathElem

def wDoc : SvgDoc := ⟨100, 100, [wElem]⟩

def wVisElem : Element := .path [("visibility", "hidden")] wPathElem

def wVisDoc : SvgDoc := ⟨100, 100, [wVisElem]⟩

def wPolyWH : PolyWH := ⟨GExpr.dilate (boundaryOf wPathElem 1) 5, holesOf wPathElem 1⟩

def s0state : NState :=
  [(({((0 : ℤ), (0 : ℤ))}, {((0 : ℤ), (0 : ℤ))}), {((0 : ℤ), (0 : ℤ))})]

/-- Evaluation of the ingest pipeline on the `wDoc` fixture. -/
theorem wDoc_shapely_eval :
    (extract_shapely_polygons wDoc 1).2 =
      [(boundaryOf wPathElem 1, holesOf wPathElem 1)] := rfl

theorem wDoc_polygons_eval : (extract_polygons wDoc 1 5).2 = [wPolyWH] := rfl

def wInterpP : PolyWH → Region := fun _ => {((0 : ℤ), (0 : ℤ))}

def wInterpB : GExpr → Region := fun _ => ∅

def wRotr : Region → ℕ → Region := fun R _ => R

def wSheetDocs : List SvgDoc := [⟨2, 2, []⟩]

def wParts : List MPart :=
  (extract_polygons wDoc 1 0).2.map (mkVariants wInterpP wRotr 1)

def wPack : PackResult :=
  packModel wInterpP wInterpB wRotr wSheetDocs wDoc 1 0 true 1 []

def wPackF : PackResult :=
  packModel wInterpP wInterpB wRotr wSheetDocs wDoc 1 0 false 1 []

/-! ## The pack-call harness for cache-equivalence -/

/-- One `pack` call's input. -/
structure PackIn where
  sheetDocs : List SvgDoc
  shapes : SvgDoc
  tolerance : ℚ
  offset : ℚ
  partial_solution : Bool
  rotations : ℕ

def runPack (interpP : PolyWH → Region) (interpB : GExpr → Region)
    (rotr : Region → ℕ → Region) (inp : PackIn) (st : NState) : PackResult :=
  packModel interpP interpB rotr inp.sheetDocs inp.shapes inp.tolerance inp.offset
    inp.partial_solution inp.rotations st

/-- The shared persistent state after a history of `pack` calls that
started from the fresh `State()`. -/
def stateAfter (interpP : PolyWH → Region) (interpB : GExpr → Region)
    (rotr : Region → ℕ → Region) (history : List PackIn) : NState :=
  history.foldl (fun st inp => (runPack interpP interpB rotr inp st).finalState) []

theorem stateAfter_consistent (interpP : PolyWH → Region) (interpB : GExpr → Region)
    (rotr : Region → ℕ → Region) (history : List PackIn) :
    Consistent (stateAfter interpP interpB rotr history) := by
  have hgen : ∀ (hist : List PackIn) (st : NState), Consistent st →
      Consistent (hist.foldl
        (fun st inp => (runPack interpP interpB rotr inp st).finalState) st) := by
    intro hist
    induction hist with
    | nil => exact fun st hc => hc
    | cons inp rest ih =>
      intro st hc
      exact ih _ ((packModel_eq hc interpP interpB rotr inp.sheetDocs inp.shapes
        inp.tolerance inp.offset inp.partial_solution inp.rotations).2)
  exact hgen history [] consistent_nil

/-- Field unfolding for `packModel` results. -/
theorem packModel_fields (interpP : PolyWH → Region) (interpB : GExpr → Region)
    (rotr : Region → ℕ → Region) (sheetDocs : List SvgDoc) (shapes : SvgDoc)
    (tolerance offset : ℚ) (partial_solution : Bool) (rotations : ℕ) (st : NState) :
    (packModel interpP interpB rotr sheetDocs shapes tolerance offset
        partial_solution rotations st).placed =
      (packModel interpP interpB rotr sheetDocs shapes tolerance offset
        partial_solution rotations st).placements.length ∧
    (packModel interpP interpB rotr sheetDocs shapes tolerance offset
        partial_solution rotations st).failed =
      ((extract_polygons shapes tolerance offset).2.map
        (mkVariants interpP rotr rotations)).length -
      (packModel interpP interpB rotr sheetDocs shapes tolerance offset
        partial_solution rotations st).placements.length :=
  ⟨rfl, rfl⟩

theorem packModelP_eq_driver (interpP : PolyWH → Region) (interpB : GExpr → Region)
    (rotr : Region → ℕ → Region) (sheetDocs : List SvgDoc) (shapes : SvgDoc)
    (tolerance offset : ℚ) (partial_solution : Bool) (rotations : ℕ) :
    (packModelP interpP interpB rotr sheetDocs shapes tolerance offset
        partial_solution rotations).1 =
      (pack_decreasingP (sheetDocs.map (mkSheetM interpB tolerance offset))
        ((extract_polygons shapes tolerance offset).2.map
          (mkVariants interpP rotr rotations)) partial_solution).1 :=
  rfl

/-! ## The claims -/

/-- C3: every emitted boundary ring is exactly the discretized boundary
dilated by `1.5 * tolerance` and then simplified with the tolerance, and
every emitted hole ring is exactly the discretized hole eroded by
`1.5 * tolerance` and then simplified; and, in the metric model, for any
simplification within the tolerance and any discretization within
`tolerance / 2`, the boundary ring contains the true shape and
over-approximates it by at most `3 * tolerance`, while each hole ring is
contained in the true hole. -/
theorem ingest_conservative_approximation :
    (∀ (doc : SvgDoc) (tolerance : ℚ) (pr : GExpr × List GExpr),
      pr ∈ (extract_shapely_polygons doc tolerance).2 →
        (∃ pid, pr.1 = GExpr.simplify (GExpr.dilate (GExpr.disc pid tolerance)
          (3 / 2 * tolerance)) tolerance) ∧
        ∀ hx ∈ pr.2, ∃ pid, hx = GExpr.simplify (GExpr.erode
          (GExpr.disc pid tolerance) (3 / 2 * tolerance)) tolerance) ∧
    (∀ (t : ℝ) (f : Set Plane → Set Plane) (T D H Dh : Set Plane),
      0 ≤ t →
      (∀ S, merode t S ⊆ f S ∧ f S ⊆ mdilate t S) →
      T ⊆ mdilate (t / 2) D →
      D ⊆ mdilate (t / 2) T →
      Hᶜ ⊆ mdilate (t / 2) Dhᶜ →
      T ⊆ f (mdilate (3 / 2 * t) D) ∧
        f (mdilate (3 / 2 * t) D) ⊆ mdilate (3 * t) T ∧
        f (merode (3 / 2 * t) Dh) ⊆ H) := by
  constructor
  · intro doc tolerance pr hpr
    rcases shapely_pair_mem hpr with ⟨p, heq⟩
    subst heq
    constructor
    · exact ⟨(p.subpaths.headD dsub).pid, rfl⟩
    · intro hx hmem
      rcases holesOf_mem hmem with ⟨sp, _, hform⟩
      exact ⟨sp.pid, hform⟩
  · intro t f T D H Dh ht hf hTD hDT hH
    have e32 : t / 2 + t = 3 / 2 * t := by ring
    have econ : mdilate (t / 2 + t) D = mdilate (3 / 2 * t) D := by rw [e32]
    have econ2 : mdilate (t / 2 + t) Dhᶜ = mdilate (3 / 2 * t) Dhᶜ := by rw [e32]
    refine ⟨?_, ?_, ?_⟩
    · intro x hx
      have h1 : x ∈ merode t (mdilate (t / 2 + t) D) :=
        @mdilate_subset_merode (t / 2) t D x (hTD hx)
      rw [econ] at h1
      exact (hf _).1 h1
    · intro x hx
      have hx1 := (hf _).2 hx
      have hx2 : x ∈ mdilate (t + 3 / 2 * t) D := mdilate_mdilate _ hx1
      have hx3 : x ∈ mdilate (t + 3 / 2 * t) (mdilate (t / 2) T) :=
        mdilate_mono_set hDT hx2
      have hx4 : x ∈ mdilate (t + 3 / 2 * t + t / 2) T := mdilate_mdilate _ hx3
      have e3 : t + 3 / 2 * t + t / 2 = 3 * t := by ring
      rw [e3] at hx4
      exact hx4
    · intro x hx
      by_contra hxH
      have k1 : x ∈ mdilate (t / 2) Dhᶜ := hH hxH
      have k2 : x ∈ merode t (mdilate (t / 2 + t) Dhᶜ) :=
        @mdilate_subset_merode (t / 2) t Dhᶜ x k1
      rw [econ2] at k2
      rw [show mdilate (3 / 2 * t) Dhᶜ = (merode (3 / 2 * t) Dh)ᶜ from
        (compl_merode _ _).symm] at k2
      rw [show merode t ((merode (3 / 2 * t) Dh)ᶜ) =
          (mdilate t (merode (3 / 2 * t) Dh))ᶜ from (compl_mdilate _ _).symm] at k2
      exact k2 ((hf _).2 hx)

theorem ingest_conservative_approximation_witness :
    ((∃ pid, (boundaryOf wPathElem 1, holesOf wPathElem 1).1 =
        GExpr.simplify (GExpr.dilate (GExpr.disc pid 1) (3 / 2 * 1)) 1) ∧
      ∀ hx ∈ (boundaryOf wPathElem 1, holesOf wPathElem 1).2, ∃ pid,
        hx = GExpr.simplify (GExpr.erode (GExpr.disc pid 1) (3 / 2 * 1)) 1) ∧
    ((Set.univ : Set Plane) ⊆ id (mdilate (3 / 2 * 0) (Set.univ : Set Plane)) ∧
      id (mdilate (3 / 2 * 0) (Set.univ : Set Plane)) ⊆ mdilate (3 * 0) Set.univ ∧
      id (merode (3 / 2 * 0) (Set.univ : Set Plane)) ⊆ Set.univ) :=
  ⟨ingest_conservative_approximation.1 wDoc 1
      (boundaryOf wPathElem 1, holesOf wPathElem 1)
      (by rw [wDoc_shapely_eval]; exact List.mem_singleton.mpr rfl),
   ingest_conservative_approximation.2 0 id Set.univ Set.univ Set.univ Set.univ
     le_rfl (fun S => ⟨merode_subset le_rfl S, subset_mdilate le_rfl S⟩)
     (subset_mdilate (by norm_num) Set.univ)
     (subset_mdilate (by norm_num) Set.univ)
     (fun x hx => absurd (Set.mem_univ x) hx)⟩

/-- C4: after the conservative approximation, `extract_polygons` dilates
the outer boundary by exactly the user `offset`, and the holes are passed
on without any dilation by `offset` (each is still exactly the
erode-then-simplify expression of `extract_shapely_polygons`). -/
theorem extract_polygons_offset_dilation (doc : SvgDoc) (tolerance offset : ℚ) :
    (extract_polygons doc tolerance offset).2 =
      ((extract_shapely_polygons doc tolerance).2).map
        (fun bh => { boundary := GExpr.dilate bh.1 offset, holes := bh.2 }) ∧
    ∀ pw ∈ (extract_polygons doc tolerance offset).2,
      (∃ bh ∈ (extract_shapely_polygons doc tolerance).2,
        pw.boundary = GExpr.dilate bh.1 offset ∧ pw.holes = bh.2) ∧
      ∀ hx ∈ pw.holes, ∃ pid, hx = GExpr.simplify (GExpr.erode
        (GExpr.disc pid tolerance) (3 / 2 * tolerance)) tolerance := by
  refine ⟨rfl, ?_⟩
  intro pw hpw
  unfold extract_polygons at hpw
  simp only [List.mem_map] at hpw
  rcases hpw with ⟨bh, hbh, heq⟩
  constructor
  · exact ⟨bh, hbh, by rw [← heq], by rw [← heq]⟩
  · intro hx hmem
    have hh : hx ∈ bh.2 := by
      rw [← heq] at hmem
      exact hmem
    rcases shapely_pair_mem hbh with ⟨p, hp⟩
    have hh2 : hx ∈ holesOf p tolerance := by
      rw [hp] at hh
      exact hh
    rcases holesOf_mem hh2 with ⟨sp, _, hform⟩
    exact ⟨sp.pid, hform⟩

theorem extract_polygons_offset_dilation_witness :
    wPolyWH ∈ (extract_polygons wDoc 1 5).2 ∧
    ((∃ bh ∈ (extract_shapely_polygons wDoc 1).2,
        wPolyWH.boundary = GExpr.dilate bh.1 5 ∧ wPolyWH.holes = bh.2) ∧
      ∀ hx ∈ wPolyWH.holes, ∃ pid, hx = GExpr.simplify (GExpr.erode
        (GExpr.disc pid 1) (3 / 2 * 1)) 1) :=
  ⟨by rw [wDoc_polygons_eval]; exact List.mem_singleton.mpr rfl,
   (extract_polygons_offset_dilation wDoc 1 5).2 wPolyWH
     (by rw [wDoc_polygons_eval]; exact List.mem_singleton.mpr rfl)⟩

/-- C6 counterexample: a call with `persist=False` and a custom state
supplied does **not** use the supplied state — line 307 falls through to a
fresh `State()`, refuting the claim as stated. -/
theorem custom_state_counterexample :
    chooseState false (some s0state) = UsedState.fresh ∧
    chooseState false (some s0state) ≠ UsedState.custom ∧
    chosenState false (some s0state) persistent_state ≠ s0state := by decide

/-- C6 (amended): when `custom_state` is provided **and** `persist` is
true, `pack` uses the provided state; with `custom_state` absent it uses
the shared state if `persist` is true; and whenever `persist` is false it
uses a fresh empty state, ignoring any provided custom state. -/
theorem custom_state_amended (persist : Bool) (cs : Option NState) (sh : NState) :
    (∀ s, persist = true → cs = some s →
      chooseState persist cs = UsedState.custom ∧ chosenState persist cs sh = s) ∧
    (persist = true → cs = none →
      chooseState persist cs = UsedState.shared ∧ chosenState persist cs sh = sh) ∧
    (persist = false →
      chooseState persist cs = UsedState.fresh ∧ chosenState persist cs sh = []) := by
  refine ⟨?_, ?_, ?_⟩
  · intro s hp hcs
    subst hp
    subst hcs
    constructor
    · simp [chooseState]
    · simp [chosenState]
  · intro hp hcs
    subst hp
    subst hcs
    constructor
    · simp [chooseState]
    · simp [chosenState]
  · intro hp
    subst hp
    constructor
    · simp [chooseState]
    · simp [chosenState]

theorem custom_state_amended_witness :
    (chooseState true (some s0state) = UsedState.custom ∧
      chosenState true (some s0state) [] = s0state) ∧
    (chooseState true none = UsedState.shared ∧ chosenState true none [] = []) ∧
    (chooseState false (some s0state) = UsedState.fresh ∧
      chosenState false (some s0state) [] = []) :=
  ⟨(custom_state_amended true (some s0state) []).1 s0state rfl rfl,
   (custom_state_amended true none []).2.1 rfl rfl,
   (custom_state_amended false (some s0state) []).2.2 rfl⟩

/-- C8 counterexample: a non-empty closed path that carries a `hidden`
attribute with `visibility='hidden'` is **not** retained, so retention is
not equivalent to "non-empty and closed" alone. -/
theorem retention_counterexample :
    cexPathElem.segCount ≠ 0 ∧ is_closed cexPathElem 1 = true ∧
    hiddenSkip cexHiddenElem = true ∧
    cexHiddenElem ∉ (extract_shapely_polygons cexHiddenDoc 1).1 := by decide

/-- C8 (amended): an element is retained iff it is not skipped as hidden
and is a path (or a shape converted to a path) with at least one segment
whose first subpath's start and end points are within the tolerance; and
dropped elements contribute no polygon, so they are counted as neither
placed nor failed. -/
theorem retention_characterization (doc : SvgDoc) (tolerance : ℚ) :
    (extract_shapely_polygons doc tolerance).1 =
      doc.elements.filter (fun e => !hiddenSkip e && elemKeep e tolerance) ∧
    (extract_shapely_polygons doc tolerance).2.length =
      (extract_shapely_polygons doc tolerance).1.length :=
  ⟨retained_eq_filter doc tolerance, shapely_lengths doc tolerance⟩

/-- C9: a sheet passed to the driver takes its rectangle from the document
viewBox, and its forbidden regions are exactly the outer boundaries of the
sheet document's polygons, dilated by `offset` on top of the conservative
approximation; the polygons' inner holes are discarded and appear nowhere
in the obstacle list. -/
theorem sheet_obstacles_boundary_only (interpB : GExpr → Region)
    (tolerance offset : ℚ) (d : SvgDoc) :
    (mkSheetM interpB tolerance offset d).w = d.width ∧
    (mkSheetM interpB tolerance offset d).h = d.height ∧
    (mkSheetM interpB tolerance offset d).obstacles =
      ((extract_shapely_polygons d tolerance).2).map
        (fun bh => (interpB (GExpr.dilate bh.1 offset), ((0 : ℤ), (0 : ℤ)))) := by
  refine ⟨rfl, rfl, ?_⟩
  simp only [mkSheetM, extract_polygons, List.map_map]
  rfl

/-- C10: an element is skipped as hidden iff it carries an attribute named
`hidden` and its `visibility` attribute equals `hidden`; an element
without a `hidden` attribute is never skipped, so one with only
`visibility='hidden'` is still ingested (and packed) whenever it passes
the geometric retention test. -/
theorem hidden_skip_rule (doc : SvgDoc) (tolerance : ℚ) (e : Element) :
    (hiddenSkip e = ((lookupAttr (elemValues e) "hidden").isSome &&
      (lookupAttr (elemValues e) "visibility" == some "hidden"))) ∧
    (lookupAttr (elemValues e) "hidden" = none → hiddenSkip e = false) ∧
    (e ∈ doc.elements → hiddenSkip e = false → elemKeep e tolerance = true →
      e ∈ (extract_shapely_polygons doc tolerance).1) ∧
    (e ∈ (extract_shapely_polygons doc tolerance).1 →
      hiddenSkip e = false ∧ elemKeep e tolerance = true) := by
  refine ⟨rfl, ?_, ?_, ?_⟩
  · intro h
    unfold hiddenSkip
    rw [h]
    rfl
  · intro hmem hskip hkeep
    rw [retained_eq_filter]
    refine List.mem_filter.mpr ⟨hmem, ?_⟩
    rw [hskip, hkeep]
    rfl
  · intro hmem
    rw [retained_eq_filter] at hmem
    have h := (List.mem_filter.mp hmem).2
    rcases Bool.and_eq_true_iff.mp h with ⟨h1, h2⟩
    refine ⟨?_, h2⟩
    simpa using h1

theorem hidden_skip_rule_witness :
    wVisElem ∈ (extract_shapely_polygons wVisDoc 1).1 ∧
    hiddenSkip wVisElem = false :=
  ⟨(hidden_skip_rule wVisDoc 1 wVisElem).2.2.1 (by decide) (by decide) (by decide),
   (hidden_skip_rule wVisDoc 1 wVisElem).2.1 (by decide)⟩

/-- C1: every solution returned by `pack` is geometrically valid — each
placed part lies fully inside its sheet's rectangle, is disjoint from
every forbidden region that sheet started with, and placements on a
common sheet are pairwise disjoint (the raster model is exact, so no
erosion slack is needed). -/
theorem pack_placements_disjoint_and_on_sheet (interpP : PolyWH → Region)
    (interpB : GExpr → Region) (rotr : Region → ℕ → Region)
    (sheetDocs : List SvgDoc) (shapes : SvgDoc) (tolerance offset : ℚ)
    (partial_solution : Bool) (rotations : ℕ) (st : NState)
    (hc : Consistent st) :
    (∀ pl ∈ (packModel interpP interpB rotr sheetDocs shapes tolerance offset
        partial_solution rotations st).placements,
      ∀ d, sheetDocs.get? pl.sheet = some d →
        InRect d.width d.height
          (plRegion ((extract_polygons shapes tolerance offset).2.map
            (mkVariants interpP rotr rotations)) pl) ∧
        ∀ ob ∈ (mkSheetM interpB tolerance offset d).obstacles,
          Disjoint (rtrans ob.2 ob.1)
            (plRegion ((extract_polygons shapes tolerance offset).2.map
              (mkVariants interpP rotr rotations)) pl)) ∧
    List.Pairwise (fun a b => a.sheet = b.sheet →
      Disjoint
        (plRegion ((extract_polygons shapes tolerance offset).2.map
          (mkVariants interpP rotr rotations)) a)
        (plRegion ((extract_polygons shapes tolerance offset).2.map
          (mkVariants interpP rotr rotations)) b))
      (packModel interpP interpB rotr sheetDocs shapes tolerance offset
        partial_solution rotations st).placements := by
  have heq := (packModel_eq hc interpP interpB rotr sheetDocs shapes tolerance
    offset partial_solution rotations).1
  rcases pack_decreasingP_sound (sheetDocs.map (mkSheetM interpB tolerance offset))
      ((extract_polygons shapes tolerance offset).2.map
        (mkVariants interpP rotr rotations)) partial_solution with ⟨h1, h2⟩
  constructor
  · intro pl hpl d hd
    rw [heq] at hpl
    have hplP : pl ∈ (pack_decreasingP (sheetDocs.map (mkSheetM interpB tolerance
        offset)) ((extract_polygons shapes tolerance offset).2.map
          (mkVariants interpP rotr rotations)) partial_solution).1 := hpl
    have hsheet : (sheetDocs.map (mkSheetM interpB tolerance offset)).get? pl.sheet
        = some (mkSheetM interpB tolerance offset d) := by
      rw [get?_map_eq, hd]
      rfl
    have h := h1 pl hplP _ hsheet
    exact ⟨h.1, h.2⟩
  · rw [heq]
    exact h2

theorem pack_placements_disjoint_and_on_sheet_witness :
    Consistent ([] : NState) ∧
    ((∀ pl ∈ wPack.placements, ∀ d, wSheetDocs.get? pl.sheet = some d →
        InRect d.width d.height (plRegion wParts pl) ∧
        ∀ ob ∈ (mkSheetM wInterpB 1 0 d).obstacles,
          Disjoint (rtrans ob.2 ob.1) (plRegion wParts pl)) ∧
      List.Pairwise (fun a b => a.sheet = b.sheet →
        Disjoint (plRegion wParts a) (plRegion wParts b)) wPack.placements) :=
  ⟨consistent_nil,
   pack_placements_disjoint_and_on_sheet wInterpP wInterpB wRotr wSheetDocs wDoc
     1 0 true 1 [] consistent_nil⟩

/-- C2: with `partial_solution = False`, `pack` is all-or-nothing —
either the failed count is zero (every retained polygon was placed) or
the placed count is zero and the placement list is empty. -/
theorem pack_all_or_nothing (interpP : PolyWH → Region) (interpB : GExpr → Region)
    (rotr : Region → ℕ → Region) (sheetDocs : List SvgDoc) (shapes : SvgDoc)
    (tolerance offset : ℚ) (rotations : ℕ) (st : NState) (hc : Consistent st) :
    (packModel interpP interpB rotr sheetDocs shapes tolerance offset
        false rotations st).failed = 0 ∨
      ((packModel interpP interpB rotr sheetDocs shapes tolerance offset
          false rotations st).placed = 0 ∧
        (packModel interpP interpB rotr sheetDocs shapes tolerance offset
          false rotations st).placements = []) := by
  have heq := (packModel_eq hc interpP interpB rotr sheetDocs shapes tolerance
    offset false rotations).1
  have hdrv := packModelP_eq_driver interpP interpB rotr sheetDocs shapes
    tolerance offset false rotations
  have hao := pack_decreasingP_all_or_nothing
    (sheetDocs.map (mkSheetM interpB tolerance offset))
    ((extract_polygons shapes tolerance offset).2.map
      (mkVariants interpP rotr rotations))
  rcases packModel_fields interpP interpB rotr sheetDocs shapes tolerance offset
    false rotations st with ⟨hplaced, hfailed⟩
  rcases hao with hall | hempty
  · left
    rw [hfailed, heq, hdrv, hall]
    omega
  · right
    constructor
    · rw [hplaced, heq, hdrv, hempty]
      rfl
    · rw [heq, hdrv, hempty]

theorem pack_all_or_nothing_witness :
    Consistent ([] : NState) ∧
    (wPackF.failed = 0 ∨ (wPackF.placed = 0 ∧ wPackF.placements = [])) :=
  ⟨consistent_nil,
   pack_all_or_nothing wInterpP wInterpB wRotr wSheetDocs wDoc 1 0 1 []
     consistent_nil⟩

/-- C7: the counts returned by `pack` satisfy
`placed + failed = number of polygons retained from the shapes document`
(open or degenerate paths were dropped before this count and appear in
neither), and no polygon id appears in more than one placement across all
returned sheets. -/
theorem pack_accounting (interpP : PolyWH → Region) (interpB : GExpr → Region)
    (rotr : Region → ℕ → Region) (sheetDocs : List SvgDoc) (shapes : SvgDoc)
    (tolerance offset : ℚ) (partial_solution : Bool) (rotations : ℕ)
    (st : NState) (hc : Consistent st) :
    (packModel interpP interpB rotr sheetDocs shapes tolerance offset
        partial_solution rotations st).placed +
      (packModel interpP interpB rotr sheetDocs shapes tolerance offset
        partial_solution rotations st).failed =
      (extract_polygons shapes tolerance offset).2.length ∧
    ((packModel interpP interpB rotr sheetDocs shapes tolerance offset
        partial_solution rotations st).placements.map
      (fun pl => pl.pid)).Nodup := by
  have heq := (packModel_eq hc interpP interpB rotr sheetDocs shapes tolerance
    offset partial_solution rotations).1
  have hdrv := packModelP_eq_driver interpP interpB rotr sheetDocs shapes
    tolerance offset partial_solution rotations
  rcases packModel_fields interpP interpB rotr sheetDocs shapes tolerance offset
    partial_solution rotations st with ⟨hplaced, hfailed⟩
  have hle := pack_decreasingP_length_le
    (sheetDocs.map (mkSheetM interpB tolerance offset))
    ((extract_polygons shapes tolerance offset).2.map
      (mkVariants interpP rotr rotations)) partial_solution
  have hnd := pack_decreasingP_nodup
    (sheetDocs.map (mkSheetM interpB tolerance offset))
    ((extract_polygons shapes tolerance offset).2.map
      (mkVariants interpP rotr rotations)) partial_solution
  constructor
  · rw [hplaced, hfailed, heq, hdrv]
    have hlen : ((extract_polygons shapes tolerance offset).2.map
        (mkVariants interpP rotr rotations)).length =
        (extract_polygons shapes tolerance offset).2.length :=
      List.length_map _ _
    omega
  · rw [heq, hdrv]
    exact hnd

theorem pack_accounting_witness :
    Consistent ([] : NState) ∧
    (wPack.placed + wPack.failed = (extract_polygons wDoc 1 0).2.length ∧
      (wPack.placements.map (fun pl => pl.pid)).Nodup) :=
  ⟨consistent_nil,
   pack_accounting wInterpP wInterpB wRotr wSheetDocs wDoc 1 0 true 1 []
     consistent_nil⟩

/-- C5: caching never changes results — a `pack` call starting from the
state left behind by any history of earlier calls (each starting from the
fresh `State()`) returns exactly the placements and counts of the same
call on a fresh state; in the pure model two fresh-state calls are the
same term, so they agree as well. -/
theorem pack_cache_equivalence (interpP : PolyWH → Region)
    (interpB : GExpr → Region) (rotr : Region → ℕ → Region)
    (history : List PackIn) (inp : PackIn) :
    (runPack interpP interpB rotr inp
        (stateAfter interpP interpB rotr history)).placements =
      (runPack interpP interpB rotr inp []).placements ∧
    (runPack interpP interpB rotr inp
        (stateAfter interpP interpB rotr history)).placed =
      (runPack interpP interpB rotr inp []).placed ∧
    (runPack interpP interpB rotr inp
        (stateAfter interpP interpB rotr history)).failed =
      (runPack interpP interpB rotr inp []).failed := by
  have hcw := stateAfter_consistent interpP interpB rotr history
  have h1 := (packModel_eq hcw interpP interpB rotr inp.sheetDocs inp.shapes
    inp.tolerance inp.offset inp.partial_solution inp.rotations).1
  have h2 := (packModel_eq consistent_nil interpP interpB rotr inp.sheetDocs
    inp.shapes inp.tolerance inp.offset inp.partial_solution inp.rotations).1
  have hpl : (runPack interpP interpB rotr inp
      (stateAfter interpP interpB rotr history)).placements =
      (runPack interpP interpB rotr inp []).placements := h1.trans h2.symm
  refine ⟨hpl, ?_, ?_⟩
  · rcases packModel_fields interpP interpB rotr inp.sheetDocs inp.shapes
      inp.tolerance inp.offset inp.partial_solution inp.rotations
      (stateAfter interpP interpB rotr history) with ⟨ha, _⟩
    rcases packModel_fields interpP interpB rotr inp.sheetDocs inp.shapes
      inp.tolerance inp.offset inp.partial_solution inp.rotations [] with ⟨hb, _⟩
    show (packModel interpP interpB rotr inp.sheetDocs inp.shapes inp.tolerance
        inp.offset inp.partial_solution inp.rotations
        (stateAfter interpP interpB rotr history)).placed =
      (packModel interpP interpB rotr inp.sheetDocs inp.shapes inp.tolerance
        inp.offset inp.partial_solution inp.rotations []).placed
    rw [ha, hb, h1.trans h2.symm]
  · rcases packModel_fields interpP interpB rotr inp.sheetDocs inp.shapes
      inp.tolerance inp.offset inp.partial_solution inp.rotations
      (stateAfter interpP interpB rotr history) with ⟨_, ha⟩
    rcases packModel_fields interpP interpB rotr inp.sheetDocs inp.shapes
      inp.tolerance inp.offset inp.partial_solution inp.rotations [] with ⟨_, hb⟩
    show (packModel interpP interpB rotr inp.sheetDocs inp.shapes inp.tolerance
        inp.offset inp.partial_solution inp.rotations
        (stateAfter interpP interpB rotr history)).failed =
      (packModel interpP interpB rotr inp.sheetDocs inp.shapes inp.tolerance
        inp.offset inp.partial_solution inp.rotations []).failed
    rw [ha, hb, h1.trans h2.symm]

end Packaide
